import Mathlib

/-!
Verification development for the blog data model of
HelloDjango-blog-tutorial (`blog/models.py`).

The file shallowly embeds the content-rendering subsystem and the `Post`
model.  The repository code delegates markdown conversion to the
`python-markdown` library, tag stripping to `django.utils.html.strip_tags`,
and slug generation to `django.utils.text.slugify`; those external
collaborators are modelled here at the fidelity the claims need, on a
documented fragment of markdown (ATX headings, paragraphs, block-level raw
HTML passthrough, and the `[TOC]` placeholder of the toc extension).
Machine text is `List Char` internally, wrapped in `String` at the API.
-/

namespace Blog

/-- Membership test used throughout: does the character occur in the list. -/
def hasChar (c : Char) (l : List Char) : Bool := l.any (fun d => d == c)

/-- Number of occurrences of the character in the list. -/
def countOcc (c : Char) (l : List Char) : Nat := l.countP (fun d => d == c)

/-- Prefix test on character lists. -/
def isPrefixL : List Char → List Char → Bool
  | [], _ => true
  | _ :: _, [] => false
  | a :: as, b :: bs => a == b && isPrefixL as bs

/-- Substring occurrence test on character lists. -/
def occursIn (pat : List Char) : List Char → Bool
  | [] => isPrefixL pat []
  | c :: rest => isPrefixL pat (c :: rest) || occursIn pat rest

/-- Python newline join, as in "\n".join of a list of lines. -/
def joinNl : List (List Char) → List Char
  | [] => []
  | [l] => l
  | l :: l2 :: ls => l ++ '\n' :: joinNl (l2 :: ls)

/-- Split a character list at newline characters, like Python str.split
on a single newline: the empty text yields one empty line. -/
def splitLines : List Char → List (List Char)
  | [] => [[]]
  | c :: rest =>
    if c == '\n' then [] :: splitLines rest
    else
      match splitLines rest with
      | [] => [[c]]
      | l :: ls => (c :: l) :: ls

/-- Model of the character escaping python-markdown applies to plain text
content: the ampersand and both angle brackets become entities. -/
def escChar (c : Char) : List Char :=
  if c == '&' then "&amp;".toList
  else if c == '<' then "&lt;".toList
  else if c == '>' then "&gt;".toList
  else [c]

/-- Escape every character of a text run. -/
def escapeHtml (l : List Char) : List Char := (l.map escChar).flatten

/-- Characters django.utils.text.slugify keeps before collapsing:
word characters, whitespace and hyphens (ASCII fragment). -/
def slugKeep (c : Char) : Bool := c.isAlphanum || c == ' ' || c == '-' || c == '_'

/-- Collapse runs of spaces and hyphens to a single hyphen; the flag
records whether the previous kept character was such a run member. -/
def collapseGo : Bool → List Char → List Char
  | _, [] => []
  | prev, c :: rest =>
    if c == ' ' || c == '-' then
      if prev then collapseGo true rest else '-' :: collapseGo true rest
    else c :: collapseGo false rest

/-- Strip leading and trailing hyphens and underscores, as str.strip of
the two characters does. -/
def trimDash (l : List Char) : List Char :=
  ((l.dropWhile (fun c => c == '-' || c == '_')).reverse.dropWhile
    (fun c => c == '-' || c == '_')).reverse

/-- Model of django.utils.text.slugify on ASCII input: lowercase, drop
characters outside word or space or hyphen, collapse space and hyphen
runs to one hyphen, strip edge hyphens and underscores. -/
def slugifyL (l : List Char) : List Char :=
  trimDash (collapseGo false ((l.map Char.toLower).filter slugKeep))

/-- Strip leading and trailing spaces of a heading text. -/
def trimSpacesL (l : List Char) : List Char :=
  ((l.dropWhile (fun c => c == ' ')).reverse.dropWhile (fun c => c == ' ')).reverse

/-- Recognise an ATX heading line: one to six hash marks then the heading
text (python-markdown does not require a space after the hashes); the
surrounding spaces of the text are trimmed. -/
def headingOf (l : List Char) : Option (Nat × List Char) :=
  let n := (l.takeWhile (fun c => c == '#')).length
  if 1 ≤ n ∧ n ≤ 6 then some (n, trimSpacesL (l.drop n)) else none

/-- Blank separator line: empty or whitespace only. -/
def isBlankL (l : List Char) : Bool := l.all (fun c => c == ' ' || c == '\t')

/-- Close the accumulator of the current group of consecutive non-blank
lines, restoring their original order. -/
def closeAcc (acc : List (List Char)) : List (List (List Char)) :=
  match acc with
  | [] => []
  | _ => [acc.reverse]

/-- Group consecutive non-blank lines, dropping blank separator lines. -/
def groupifyGo : List (List Char) → List (List Char) → List (List (List Char))
  | acc, [] => closeAcc acc
  | acc, l :: ls =>
    if isBlankL l then closeAcc acc ++ groupifyGo [] ls
    else groupifyGo (l :: acc) ls

/-- Split a line list into blocks of consecutive non-blank lines. -/
def groupify (ls : List (List Char)) : List (List (List Char)) :=
  groupifyGo [] ls

/-- Block structure of the modelled markdown fragment. -/
inductive Block where
  | heading (level : Nat) (text : List Char)
  | para (text : List Char)
  | tocMarker
  | rawHtml (text : List Char)
deriving Repr, DecidableEq

/-- Turn the accumulated paragraph lines of a group into a block: the
exact text [TOC] is the toc-extension placeholder, anything else a
paragraph keeping its internal newlines. -/
def flushPara (acc : List (List Char)) : List Block :=
  match acc with
  | [] => []
  | _ =>
    if joinNl acc == "[TOC]".toList then [Block.tocMarker]
    else [Block.para (joinNl acc)]

/-- Walk the lines of one group: heading lines become standalone heading
blocks, runs of other lines one paragraph. -/
def groupGo : List (List Char) → List (List Char) → List Block
  | acc, [] => flushPara acc.reverse
  | acc, l :: ls =>
    match headingOf l with
    | some nt => flushPara acc.reverse ++ Block.heading nt.1 nt.2 :: groupGo [] ls
    | none => groupGo (l :: acc) ls

/-- Parse one group of lines: a group whose first line opens with an
angle bracket is a block-level raw HTML block passed through verbatim,
as python-markdown stashes such blocks untouched. -/
def parseGroup (g : List (List Char)) : List Block :=
  match g with
  | [] => []
  | first :: _ =>
    if first.head? == some '<' then [Block.rawHtml (joinNl g)]
    else groupGo [] g

/-- Parse a whole document into blocks. -/
def parseBlocks (v : List Char) : List Block :=
  ((groupify (splitLines v)).map parseGroup).flatten

/-- Digit character of a heading level; levels outside the parsed range
one to six never arise but default to the zero digit. -/
def digitChar (n : Nat) : Char :=
  if n == 1 then '1'
  else if n == 2 then '2'
  else if n == 3 then '3'
  else if n == 4 then '4'
  else if n == 5 then '5'
  else if n == 6 then '6'
  else '0'

/-- Render of one block by the excerpt-path converter, which is built
with only the extra and codehilite extensions and no toc extension
(models the Markdown instance of Post.save, models.py lines 95-97):
headings carry no id attribute and the [TOC] placeholder stays an
ordinary paragraph. -/
def renderBasicBlock : Block → List Char
  | Block.heading n t =>
      '<' :: 'h' :: digitChar n :: '>' ::
        (escapeHtml t ++ '<' :: '/' :: 'h' :: digitChar n :: ['>'])
  | Block.para t => "<p>".toList ++ escapeHtml t ++ "</p>".toList
  | Block.tocMarker => "<p>[TOC]</p>".toList
  | Block.rawHtml t => t

/-- The heading list of a document, in order. -/
def headingsOf (bs : List Block) : List (Nat × List Char) :=
  bs.filterMap (fun b =>
    match b with
    | Block.heading n t => some (n, t)
    | _ => none)

/-- One toc list entry for a heading, linking to its slug anchor. -/
def tocEntry (t : List Char) : List Char :=
  "<li><a href=\"#".toList ++ slugifyL t ++
    '"' :: '>' :: (escapeHtml t ++ "</a></li>".toList)

/-- All toc entries, each on its own line. -/
def tocEntriesL (hs : List (Nat × List Char)) : List Char :=
  hs.foldr (fun e acc => '\n' :: (tocEntry e.2 ++ acc)) []

/-- The toc side-channel document produced by the toc extension: a div of
class toc containing a ul of entries (flat-list fragment of the nested
output of python-markdown). -/
def tocDivOf (hs : List (Nat × List Char)) : List Char :=
  "<div class=\"toc\">\n<ul>".toList ++ tocEntriesL hs ++
    (if hs.isEmpty then [] else ['\n']) ++ "</ul>\n</div>\n".toList

/-- Render of one block by the rich-content converter, which is built
with extra, codehilite and TocExtension (models the Markdown instance of
generate_rich_content, models.py lines 15-21): headings carry slug id
attributes and a [TOC] placeholder is replaced by the toc div. -/
def renderTocBlock (tocDoc : List Char) : Block → List Char
  | Block.heading n t =>
      '<' :: 'h' :: digitChar n :: (" id=\"".toList ++ slugifyL t ++
        '"' :: '>' :: (escapeHtml t ++ '<' :: '/' :: 'h' :: digitChar n :: ['>']))
  | Block.para t => "<p>".toList ++ escapeHtml t ++ "</p>".toList
  | Block.tocMarker => tocDoc
  | Block.rawHtml t => t

/-- Model of md.convert for the excerpt-path converter. -/
def mdConvertBasic (v : List Char) : List Char :=
  joinNl ((parseBlocks v).map renderBasicBlock)

/-- Model of md.convert for the rich-content converter. -/
def mdConvertToc (v : List Char) : List Char :=
  let bs := parseBlocks v
  joinNl (bs.map (renderTocBlock (tocDivOf (headingsOf bs))))

/-- Model of the md.toc attribute read after md.convert in
generate_rich_content. -/
def mdTocOutput (v : List Char) : List Char :=
  tocDivOf (headingsOf (parseBlocks v))

/-- Python regex whitespace class, as matched by a backslash-s atom. -/
def isWs (c : Char) : Bool :=
  c == ' ' || c == '\t' || c == '\n' || c == '\r' || c == '\x0b' || c == '\x0c'

/-- Drop a literal pattern from the front, returning the remainder. -/
def dropPrefixL : List Char → List Char → Option (List Char)
  | [], l => some l
  | _ :: _, [] => none
  | a :: as, b :: bs => if a == b then dropPrefixL as bs else none

/-- Tail test of the toc regex: does the list begin with the closing ul
tag, optional whitespace, then the closing div tag. -/
def matchClose (l : List Char) : Bool :=
  match dropPrefixL "</ul>".toList l with
  | none => false
  | some r =>
    match dropPrefixL "</div>".toList (r.dropWhile isWs) with
    | none => false
    | some _ => true

/-- Greedy capture of the dot-star group: the longest split whose
remainder matches the closing tags. -/
def greedyCap (l : List Char) : Option (List Char) :=
  match (List.range (l.length + 1)).reverse.find? (fun k => matchClose (l.drop k)) with
  | some k => some (l.take k)
  | none => none

/-- Attempt the whole toc pattern at the current position: the literal
opening div tag, optional whitespace, the opening ul tag, then the greedy
captured group. -/
def matchTocAt (l : List Char) : Option (List Char) :=
  match dropPrefixL "<div class=\"toc\">".toList l with
  | none => none
  | some r1 =>
    match dropPrefixL "<ul>".toList (r1.dropWhile isWs) with
    | none => none
    | some r2 => greedyCap r2

/-- Model of re.search with the pattern of generate_rich_content
(models.py line 23) under re.S: leftmost match position, greedy group. -/
def searchToc : List Char → Option (List Char)
  | [] => matchTocAt []
  | c :: rest =>
    match matchTocAt (c :: rest) with
    | some cap => some cap
    | none => searchToc rest

/-- Extraction step of generate_rich_content (models.py lines 23-24):
the first group when the search matches, the empty string otherwise. -/
def extractToc (l : List Char) : List Char :=
  match searchToc l with
  | some cap => cap
  | none => []

/-- Result record of generate_rich_content, the dict with the keys
content and toc. -/
structure RichContent where
  content : String
  toc : String
deriving Repr, DecidableEq

/-- Model of generate_rich_content (models.py lines 14-25): convert the
value with the extra, codehilite and toc extensions, then extract the
inner ul markup of the toc attribute by regex search. -/
def generate_rich_content (value : String) : RichContent :=
  { content := String.mk (mdConvertToc value.toList)
    toc := String.mk (extractToc (mdTocOutput value.toList)) }

/-- Character that may open a markup construct after an angle bracket,
as recognised by the Python html.parser machinery backing the Django
tag stripper: tag names, end tags, declarations, processing
instructions. -/
def tagStart (c : Char) : Bool := c.isAlpha || c == '/' || c == '!' || c == '?'

/-- State machine of one pass of the Django tag stripper
(django.utils.html, the strip_once helper built on html.parser).  The
first argument is the mode: none while scanning data, some acc while
inside a markup construct whose characters since the opening bracket
are held reversed in acc.  A bracket opening a markup construct is
removed together with everything through the next closing bracket, a
lone opening bracket not followed by a construct start is literal data,
and an unterminated trailing construct is kept as data.  Comment and
character-reference subtleties of html.parser are outside the modelled
fragment. -/
def stripGo : Option (List Char) → List Char → List Char
  | none, [] => []
  | none, c :: rest =>
    if c == '<' then
      match rest with
      | [] => ['<']
      | d :: tail =>
        if tagStart d then stripGo (some []) (d :: tail)
        else c :: stripGo none (d :: tail)
    else c :: stripGo none rest
  | some acc, [] => '<' :: acc.reverse
  | some acc, c :: rest =>
    if c == '>' then stripGo none rest else stripGo (some (c :: acc)) rest

/-- One pass of the Django tag stripper. -/
def stripOnceL (l : List Char) : List Char := stripGo none l

/-- Fuelled version of the loop of django.utils.html.strip_tags: while
both brackets occur, strip one pass; stop returning the current value
when a pass removes no opening bracket. -/
def stripLoop : Nat → List Char → List Char
  | 0, v => v
  | fuel + 1, v =>
    if hasChar '<' v && hasChar '>' v then
      let nv := stripOnceL v
      if countOcc '<' nv == countOcc '<' v then v else stripLoop fuel nv
    else v

/-- Model of django.utils.html.strip_tags: each productive pass removes
at least one opening bracket, so one more pass than the opening-bracket
count is always enough fuel. -/
def strip_tags (v : List Char) : List Char :=
  stripLoop (countOcc '<' v + 1) v

/-- Excerpt pipeline of Post.save (models.py lines 93-102): render the
body with the excerpt-path converter, strip all tags, keep the first 54
characters. -/
def excerptOf (body : String) : String :=
  String.mk ((strip_tags (mdConvertBasic body.toList)).take 54)

/-- In-memory Post instance (models.py lines 53-82).  The claims under
verification involve only the fields below; category, tags and author
are relational fields not touched by the rendering or save logic, and
the richContentCache field is the memoisation slot django.utils
functional.cached_property stores on the instance for rich_content. -/
structure Post where
  title : String
  body : String
  created_time : Nat
  modified_time : Nat
  excerpt : String
  views : Nat
  richContentCache : Option RichContent
deriving Repr, DecidableEq

/-- Persisted database row of a Post. -/
structure Stored where
  title : String
  body : String
  created_time : Nat
  modified_time : Nat
  excerpt : String
  views : Nat
deriving Repr, DecidableEq

/-- Full row image of an instance, as a full save writes it. -/
def storedOf (p : Post) : Stored :=
  { title := p.title, body := p.body, created_time := p.created_time
    modified_time := p.modified_time, excerpt := p.excerpt, views := p.views }

/-- Write one named column of the row from the instance, as a save
restricted by update_fields does column per column. -/
def applyField (p : Post) (db : Stored) (f : String) : Stored :=
  if f == "title" then { db with title := p.title }
  else if f == "body" then { db with body := p.body }
  else if f == "created_time" then { db with created_time := p.created_time }
  else if f == "modified_time" then { db with modified_time := p.modified_time }
  else if f == "excerpt" then { db with excerpt := p.excerpt }
  else if f == "views" then { db with views := p.views }
  else db

/-- In-memory effect of the overridden Post.save (models.py lines
90-102): set modified_time to the current time and recompute the
excerpt from the body, unconditionally. -/
def Post.save (p : Post) (now : Nat) : Post :=
  { p with modified_time := now, excerpt := excerptOf p.body }

/-- Post.save together with the persistence of the framework super
call (models.py line 104): without update_fields the whole row is
written; with update_fields only the named columns are written. -/
def Post.saveDb (p : Post) (now : Nat) (update_fields : Option (List String))
    (db : Stored) : Post × Stored :=
  let p2 := p.save now
  (p2,
    match update_fields with
    | none => storedOf p2
    | some fs => fs.foldl (applyField p2) db)

/-- Model of Post.increase_views (models.py lines 109-111): increment
the views counter in memory, then call the overridden save with
update_fields naming only the views column. -/
def Post.increase_views (p : Post) (now : Nat) (db : Stored) : Post × Stored :=
  ({ p with views := p.views + 1 }).saveDb now (some ["views"]) db

/-- Model of the rich_content cached property (models.py lines
121-123): the first read computes generate_rich_content of the body and
stores it on the instance; later reads return the stored value. -/
def Post.rich_content (p : Post) : RichContent × Post :=
  match p.richContentCache with
  | some rc => (rc, p)
  | none =>
    let rc := generate_rich_content p.body
    (rc, { p with richContentCache := some rc })

/-- Model of the toc property (models.py lines 113-115): the toc entry
of the rich_content dict, whose get default never fires because the
dict always carries both keys. -/
def Post.toc (p : Post) : String × Post :=
  ((p.rich_content).1.toc, (p.rich_content).2)

/-- Model of the body_html property (models.py lines 117-119). -/
def Post.body_html (p : Post) : String × Post :=
  ((p.rich_content).1.content, (p.rich_content).2)

/-- Raw HTML passthrough blocks, the one block kind whose render can
contain arbitrary markup from the body. -/
def isRaw : Block → Bool
  | Block.rawHtml _ => true
  | _ => false

/-- Plain text a basic-render block leaves behind once its fixed tags
are stripped. -/
def stripText : Block → List Char
  | Block.heading _ t => escapeHtml t
  | Block.para t => escapeHtml t
  | Block.tocMarker => "[TOC]".toList
  | Block.rawHtml t => t

/-- Tag-stripped text of a whole rendered document, block texts joined
by the newline separators the join step inserted. -/
def docText : List Block → List Char
  | [] => []
  | [b] => stripText b
  | b :: b2 :: bs => stripText b ++ '\n' :: docText (b2 :: bs)

/-- A head character is a member of the list. -/
theorem mem_of_head? {c : Char} : ∀ {l : List Char}, l.head? = some c → c ∈ l := by
  intro l h
  cases l with
  | nil => simp at h
  | cons a t =>
    simp only [List.head?_cons, Option.some.injEq] at h
    simp [h]

/-- hasChar decides membership. -/
theorem hasChar_eq_true {c : Char} {l : List Char} (h : c ∈ l) : hasChar c l = true := by
  simp only [hasChar, List.any_eq_true]
  exact ⟨c, h, by simp⟩

/-- A list all of whose members differ from the character fails
hasChar. -/
theorem hasChar_eq_false {c : Char} {l : List Char} (h : ∀ d ∈ l, d ≠ c) :
    hasChar c l = false := by
  simp only [hasChar, List.any_eq_false]
  intro d hd
  simp [h d hd]

/-- A list all of whose members differ from the character has zero
occurrence count. -/
theorem countOcc_eq_zero {c : Char} {l : List Char} (h : ∀ d ∈ l, d ≠ c) :
    countOcc c l = 0 := by
  simp only [countOcc, List.countP_eq_zero]
  intro d hd
  simp [h d hd]

/-- A member forces a positive occurrence count. -/
theorem countOcc_pos {c : Char} {l : List Char} (h : c ∈ l) : 0 < countOcc c l := by
  simp only [countOcc, List.countP_pos_iff]
  exact ⟨c, h, by simp⟩

/-- Characters produced by escaping one character are never angle
brackets. -/
theorem escChar_no_angle (c d : Char) (hd : d ∈ escChar c) : d ≠ '<' ∧ d ≠ '>' := by
  unfold escChar at hd
  by_cases h1 : c == '&'
  · simp only [h1, if_true] at hd
    fin_cases hd <;> exact ⟨by decide, by decide⟩
  · simp only [h1, Bool.false_eq_true, if_false] at hd
    by_cases h2 : c == '<'
    · simp only [h2, if_true] at hd
      fin_cases hd <;> exact ⟨by decide, by decide⟩
    · simp only [h2, Bool.false_eq_true, if_false] at hd
      by_cases h3 : c == '>'
      · simp only [h3, if_true] at hd
        fin_cases hd <;> exact ⟨by decide, by decide⟩
      · simp only [h3, Bool.false_eq_true, if_false, List.mem_singleton] at hd
        subst hd
        exact ⟨by simpa using h2, by simpa using h3⟩

/-- Characters of escaped text are never angle brackets. -/
theorem escapeHtml_no_angle (t : List Char) (d : Char) (hd : d ∈ escapeHtml t) :
    d ≠ '<' ∧ d ≠ '>' := by
  simp only [escapeHtml, List.mem_flatten, List.mem_map] at hd
  obtain ⟨l, ⟨c, _, rfl⟩, hdl⟩ := hd
  exact escChar_no_angle c d hdl

/-- The digit character of a heading level is never an angle bracket,
the letter d, or a newline, whatever the level. -/
theorem digitChar_props (n : Nat) :
    digitChar n ≠ '>' ∧ digitChar n ≠ '<' ∧ digitChar n ≠ 'd' ∧ digitChar n ≠ '\n' := by
  unfold digitChar
  split_ifs <;> exact ⟨by decide, by decide, by decide, by decide⟩

/-- One data character is copied by the strip machine. -/
theorem stripGo_cons_ne (c : Char) (l : List Char) (hc : (c == '<') = false) :
    stripGo none (c :: l) = c :: stripGo none l := by
  cases l with
  | nil => simp [stripGo, hc]
  | cons d tail => simp [stripGo, hc]

/-- The strip machine copies a tag-free text run unchanged. -/
theorem stripGo_text (t : List Char) (rest : List Char) (h : ∀ c ∈ t, c ≠ '<') :
    stripGo none (t ++ rest) = t ++ stripGo none rest := by
  induction t with
  | nil => simp
  | cons c t ih =>
    have hc : (c == '<') = false := by
      simp [h c (by simp)]
    rw [List.cons_append, stripGo_cons_ne c _ hc,
      ih (fun d hd => h d (by simp [hd])), List.cons_append]

/-- Inside a markup construct the machine discards everything through
the next closing bracket, whatever it has buffered. -/
theorem stripGo_skip (x : List Char) (acc rest : List Char) (h : ∀ c ∈ x, c ≠ '>') :
    stripGo (some acc) (x ++ '>' :: rest) = stripGo none rest := by
  induction x generalizing acc with
  | nil => simp [stripGo]
  | cons c t ih =>
    have hc : (c == '>') = false := by
      simp [h c (by simp)]
    simp only [List.cons_append, stripGo, hc, Bool.false_eq_true, if_false]
    exact ih (c :: acc) (fun d hd => h d (by simp [hd]))

/-- A complete markup construct is removed by the strip machine: an
opening bracket, a construct-start character, a closing-bracket-free
name, then the closing bracket. -/
theorem stripGo_tag (d : Char) (name rest : List Char) (hd : tagStart d = true)
    (hn : ∀ c ∈ d :: name, c ≠ '>') :
    stripGo none ('<' :: d :: (name ++ '>' :: rest)) = stripGo none rest := by
  have h1 : stripGo none ('<' :: d :: (name ++ '>' :: rest))
      = stripGo (some []) (d :: (name ++ '>' :: rest)) := by
    simp [stripGo, hd]
  rw [h1]
  exact stripGo_skip (d :: name) [] rest hn

/-- Removal of a one-character construct name. -/
theorem stripGo_tag1 (d : Char) (rest : List Char) (hd : tagStart d = true) (h : d ≠ '>') :
    stripGo none ('<' :: d :: '>' :: rest) = stripGo none rest := by
  have h4 := stripGo_tag d [] rest hd (by intro c hc; simp at hc; subst hc; exact h)
  simpa using h4

/-- Removal of a two-character construct name. -/
theorem stripGo_tag2 (d e : Char) (rest : List Char) (hd : tagStart d = true)
    (h1 : d ≠ '>') (h2 : e ≠ '>') :
    stripGo none ('<' :: d :: e :: '>' :: rest) = stripGo none rest := by
  have h4 := stripGo_tag d [e] rest hd (by
    intro c hc
    simp at hc
    rcases hc with rfl | rfl
    · exact h1
    · exact h2)
  simpa using h4

/-- Removal of a three-character construct name. -/
theorem stripGo_tag3 (d e f : Char) (rest : List Char) (hd : tagStart d = true)
    (h1 : d ≠ '>') (h2 : e ≠ '>') (h3 : f ≠ '>') :
    stripGo none ('<' :: d :: e :: f :: '>' :: rest) = stripGo none rest := by
  have h4 := stripGo_tag d [e, f] rest hd (by
    intro c hc
    simp at hc
    rcases hc with rfl | rfl | rfl
    · exact h1
    · exact h2
    · exact h3)
  simpa using h4

/-- One strip pass over a non-raw rendered block removes exactly its
fixed tags and keeps its escaped text, then continues. -/
theorem stripOnce_block (b : Block) (hb : isRaw b = false) (rest : List Char) :
    stripGo none (renderBasicBlock b ++ rest) = stripText b ++ stripGo none rest := by
  cases b with
  | heading n t =>
    obtain ⟨hgt, hlt, hdd, hnl⟩ := digitChar_props n
    show stripGo none ('<' :: 'h' :: digitChar n :: '>' ::
        ((escapeHtml t ++ '<' :: '/' :: 'h' :: digitChar n :: ['>']) ++ rest))
        = escapeHtml t ++ stripGo none rest
    rw [stripGo_tag2 'h' (digitChar n) _ (by decide) (by decide) hgt,
      List.append_assoc]
    rw [stripGo_text _ _ (fun c hc => (escapeHtml_no_angle t c hc).1)]
    show escapeHtml t ++ stripGo none ('<' :: '/' :: 'h' :: digitChar n :: '>' :: rest)
        = escapeHtml t ++ stripGo none rest
    rw [stripGo_tag3 '/' 'h' (digitChar n) rest (by decide) (by decide) (by decide) hgt]
  | para t =>
    show stripGo none ('<' :: 'p' :: '>' :: ((escapeHtml t ++ "</p>".toList) ++ rest))
        = escapeHtml t ++ stripGo none rest
    rw [stripGo_tag1 'p' _ (by decide) (by decide), List.append_assoc]
    rw [stripGo_text _ _ (fun c hc => (escapeHtml_no_angle t c hc).1)]
    show escapeHtml t ++ stripGo none ('<' :: '/' :: 'p' :: '>' :: rest)
        = escapeHtml t ++ stripGo none rest
    rw [stripGo_tag2 '/' 'p' rest (by decide) (by decide) (by decide)]
  | tocMarker =>
    show stripGo none ('<' :: 'p' :: '>' ::
        ("[TOC]".toList ++ ('<' :: '/' :: 'p' :: '>' :: rest)))
        = "[TOC]".toList ++ stripGo none rest
    rw [stripGo_tag1 'p' _ (by decide) (by decide)]
    rw [stripGo_text "[TOC]".toList _ (by decide)]
    rw [stripGo_tag2 '/' 'p' rest (by decide) (by decide) (by decide)]
  | rawHtml t => simp [isRaw] at hb

/-- One strip pass over a whole rendered document of non-raw blocks
yields the block texts joined by newlines. -/
theorem stripOnce_doc (bs : List Block) (h : ∀ b ∈ bs, isRaw b = false) :
    stripGo none (joinNl (bs.map renderBasicBlock)) = docText bs := by
  induction bs with
  | nil => rfl
  | cons b bs2 ih =>
    cases bs2 with
    | nil =>
      have h1 := stripOnce_block b (h b (by simp)) []
      rw [List.append_nil] at h1
      have h2 : stripGo none ([] : List Char) = [] := rfl
      rw [h2, List.append_nil] at h1
      exact h1
    | cons b2 bs3 =>
      show stripGo none (renderBasicBlock b ++
          '\n' :: joinNl ((b2 :: bs3).map renderBasicBlock))
          = stripText b ++ '\n' :: docText (b2 :: bs3)
      rw [stripOnce_block b (h b (by simp)) _,
        stripGo_cons_ne '\n' _ (by decide),
        ih (fun x hx => h x (by simp [hx]))]

/-- Characters left by stripping a non-raw block are never angle
brackets. -/
theorem stripText_clean (b : Block) (hb : isRaw b = false) :
    ∀ c ∈ stripText b, c ≠ '<' ∧ c ≠ '>' := by
  cases b with
  | heading n t => exact fun c hc => escapeHtml_no_angle t c hc
  | para t => exact fun c hc => escapeHtml_no_angle t c hc
  | tocMarker => intro c hc; fin_cases hc <;> exact ⟨by decide, by decide⟩
  | rawHtml t => simp [isRaw] at hb

/-- Characters of the stripped document text are never angle
brackets. -/
theorem docText_clean (bs : List Block) (h : ∀ b ∈ bs, isRaw b = false) :
    ∀ c ∈ docText bs, c ≠ '<' ∧ c ≠ '>' := by
  induction bs with
  | nil => simp [docText]
  | cons b bs2 ih =>
    cases bs2 with
    | nil =>
      intro c hc
      exact stripText_clean b (h b (by simp)) c hc
    | cons b2 bs3 =>
      intro c hc
      have hc2 : c ∈ stripText b ++ '\n' :: docText (b2 :: bs3) := hc
      rcases List.mem_append.mp hc2 with h1 | h1
      · exact stripText_clean b (h b (by simp)) c h1
      · rcases List.mem_cons.mp h1 with rfl | h2
        · exact ⟨by decide, by decide⟩
        · exact ih (fun x hx => h x (by simp [hx])) c h2

/-- Every non-raw block render opens and closes at least one tag. -/
theorem render_has_brackets (b : Block) (hb : isRaw b = false) :
    '<' ∈ renderBasicBlock b ∧ '>' ∈ renderBasicBlock b := by
  cases b with
  | heading n t =>
    refine ⟨List.mem_cons_self _ _, ?_⟩
    exact List.mem_cons_of_mem _ (List.mem_cons_of_mem _
      (List.mem_cons_of_mem _ (List.mem_cons_self _ _)))
  | para t =>
    constructor
    · exact List.mem_append.mpr (Or.inl (List.mem_append.mpr (Or.inl (by decide))))
    · exact List.mem_append.mpr (Or.inl (List.mem_append.mpr (Or.inl (by decide))))
  | tocMarker => exact ⟨by decide, by decide⟩
  | rawHtml t => simp [isRaw] at hb

/-- A character of the first line occurs in the newline join. -/
theorem mem_joinNl_head {c : Char} {x : List Char} (xs : List (List Char)) (h : c ∈ x) :
    c ∈ joinNl (x :: xs) := by
  cases xs with
  | nil => exact h
  | cons y ys => exact List.mem_append.mpr (Or.inl h)

/-- Line splitting never returns an empty line list. -/
theorem splitLines_ne_nil : ∀ l : List Char, splitLines l ≠ [] := by
  intro l
  cases l with
  | nil => simp [splitLines]
  | cons c rest =>
    by_cases hc : c == '\n'
    · simp [splitLines, hc]
    · simp only [splitLines, hc, Bool.false_eq_true, if_false]
      cases h : splitLines rest <;> simp

/-- Every character of a split line occurs in the original text. -/
theorem splitLines_chars : ∀ (l : List Char) (line : List Char),
    line ∈ splitLines l → ∀ c ∈ line, c ∈ l := by
  intro l
  induction l with
  | nil =>
    intro line hline c hc
    simp only [splitLines, List.mem_singleton] at hline
    subst hline
    simp at hc
  | cons a rest ih =>
    intro line hline c hc
    by_cases ha : a == '\n'
    · simp only [splitLines, ha, if_true, List.mem_cons] at hline
      rcases hline with rfl | h2
      · simp at hc
      · exact List.mem_cons_of_mem _ (ih line h2 c hc)
    · simp only [splitLines, ha, Bool.false_eq_true, if_false] at hline
      cases hsl : splitLines rest with
      | nil => exact absurd hsl (splitLines_ne_nil rest)
      | cons l0 ls =>
        rw [hsl] at hline
        have hline2 : line ∈ (a :: l0) :: ls := hline
        rcases List.mem_cons.mp hline2 with rfl | h2
        · rcases List.mem_cons.mp hc with rfl | h3
          · exact List.mem_cons_self _ _
          · exact List.mem_cons_of_mem _
              (ih l0 (by rw [hsl]; exact List.mem_cons_self _ _) c h3)
        · exact List.mem_cons_of_mem _
            (ih line (by rw [hsl]; exact List.mem_cons_of_mem _ h2) c hc)

/-- Every line of a produced group comes from the accumulator or from
the remaining input lines. -/
theorem groupifyGo_mem : ∀ (ls acc : List (List Char)) (g : List (List Char)),
    g ∈ groupifyGo acc ls → ∀ line ∈ g, line ∈ acc ∨ line ∈ ls := by
  intro ls
  induction ls with
  | nil =>
    intro acc g hg line hline
    have hg2 : g ∈ closeAcc acc := hg
    left
    cases acc with
    | nil => simp [closeAcc] at hg2
    | cons a t =>
      have hg3 : g ∈ [(a :: t).reverse] := hg2
      simp only [List.mem_singleton] at hg3
      subst hg3
      exact List.mem_reverse.mp hline
  | cons l ls ih =>
    intro acc g hg line hline
    by_cases hb : isBlankL l
    · have hg2 : g ∈ closeAcc acc ++ groupifyGo [] ls := by
        simpa [groupifyGo, hb] using hg
      rcases List.mem_append.mp hg2 with h1 | h1
      · left
        cases acc with
        | nil => simp [closeAcc] at h1
        | cons a t =>
          have h2 : g ∈ [(a :: t).reverse] := h1
          simp only [List.mem_singleton] at h2
          subst h2
          exact List.mem_reverse.mp hline
      · rcases ih [] g h1 line hline with h2 | h2
        · simp at h2
        · right
          exact List.mem_cons_of_mem _ h2
    · have hg2 : g ∈ groupifyGo (l :: acc) ls := by
        simpa [groupifyGo, hb] using hg
      rcases ih (l :: acc) g hg2 line hline with h2 | h2
      · rcases List.mem_cons.mp h2 with rfl | h3
        · right
          exact List.mem_cons_self _ _
        · left
          exact h3
      · right
        exact List.mem_cons_of_mem _ h2

/-- Paragraph flushing creates no raw HTML block. -/
theorem flushPara_no_raw (acc : List (List Char)) : ∀ b ∈ flushPara acc, isRaw b = false := by
  intro b hb
  cases acc with
  | nil => simp [flushPara] at hb
  | cons a t =>
    by_cases h : joinNl (a :: t) = ['[', 'T', 'O', 'C', ']']
    · have hb2 : b ∈ [Block.tocMarker] := by simpa [flushPara, h] using hb
      simp only [List.mem_singleton] at hb2
      subst hb2
      rfl
    · have hb2 : b ∈ [Block.para (joinNl (a :: t))] := by simpa [flushPara, h] using hb
      simp only [List.mem_singleton] at hb2
      subst hb2
      rfl

/-- The group walk creates no raw HTML block. -/
theorem groupGo_no_raw : ∀ (g acc : List (List Char)), ∀ b ∈ groupGo acc g, isRaw b = false := by
  intro g
  induction g with
  | nil => intro acc b hb; exact flushPara_no_raw _ b hb
  | cons l ls ih =>
    intro acc b hb
    cases hh : headingOf l with
    | some nt =>
      rw [groupGo, hh] at hb
      have hb2 : b ∈ flushPara acc.reverse ++ Block.heading nt.1 nt.2 :: groupGo [] ls := hb
      rcases List.mem_append.mp hb2 with h1 | h1
      · exact flushPara_no_raw _ b h1
      · rcases List.mem_cons.mp h1 with rfl | h2
        · rfl
        · exact ih [] b h2
    | none =>
      rw [groupGo, hh] at hb
      exact ih (l :: acc) b hb

/-- A group none of whose lines opens with an angle bracket parses to
no raw HTML block. -/
theorem parseGroup_no_raw (g : List (List Char)) (h : ∀ line ∈ g, line.head? ≠ some '<') :
    ∀ b ∈ parseGroup g, isRaw b = false := by
  intro b hb
  cases g with
  | nil => simp [parseGroup] at hb
  | cons first rs =>
    have hf : (first.head? == some '<') = false := by
      simp [h first (by simp)]
    have hb2 : b ∈ groupGo [] (first :: rs) := by
      simpa [parseGroup, hf] using hb
    exact groupGo_no_raw _ _ b hb2

/-- A body without opening angle brackets parses to no raw HTML
block. -/
theorem parseBlocks_no_raw (v : List Char) (hv : '<' ∉ v) :
    ∀ b ∈ parseBlocks v, isRaw b = false := by
  intro b hb
  simp only [parseBlocks, List.mem_flatten, List.mem_map] at hb
  obtain ⟨bl, ⟨g, hg, rfl⟩, hbg⟩ := hb
  refine parseGroup_no_raw g ?_ b hbg
  intro line hline hhead
  rcases groupifyGo_mem (splitLines v) [] g hg line hline with h1 | h1
  · simp at h1
  · exact hv (splitLines_chars v line h1 '<' (mem_of_head? hhead))

/-- One-step unfolding of the strip loop. -/
theorem stripLoop_succ (fuel : Nat) (v : List Char) :
    stripLoop (fuel + 1) v =
      if hasChar '<' v && hasChar '>' v then
        if countOcc '<' (stripOnceL v) == countOcc '<' v then v
        else stripLoop fuel (stripOnceL v)
      else v := rfl

/-- Full tag stripping of a rendered document of non-raw blocks: the
first pass removes every tag, the loop then stops because no opening
bracket is left. -/
theorem strip_tags_doc (bs : List Block) (h : ∀ b ∈ bs, isRaw b = false) :
    strip_tags (joinNl (bs.map renderBasicBlock)) = docText bs := by
  cases bs with
  | nil => rfl
  | cons b bs2 =>
    have hb0 : isRaw b = false := h b (by simp)
    have hlt : '<' ∈ joinNl ((b :: bs2).map renderBasicBlock) :=
      mem_joinNl_head _ (render_has_brackets b hb0).1
    have hgt : '>' ∈ joinNl ((b :: bs2).map renderBasicBlock) :=
      mem_joinNl_head _ (render_has_brackets b hb0).2
    have hstrip : stripOnceL (joinNl ((b :: bs2).map renderBasicBlock))
        = docText (b :: bs2) := stripOnce_doc (b :: bs2) h
    have hclean := docText_clean (b :: bs2) h
    have hc0 : countOcc '<' (docText (b :: bs2)) = 0 :=
      countOcc_eq_zero (fun d hd => (hclean d hd).1)
    obtain ⟨m, hm⟩ : ∃ m, countOcc '<' (joinNl ((b :: bs2).map renderBasicBlock)) = m + 1 := by
      have := countOcc_pos hlt
      exact ⟨countOcc '<' (joinNl ((b :: bs2).map renderBasicBlock)) - 1, by omega⟩
    show stripLoop (countOcc '<' (joinNl ((b :: bs2).map renderBasicBlock)) + 1)
        (joinNl ((b :: bs2).map renderBasicBlock)) = docText (b :: bs2)
    rw [hm, stripLoop_succ, hasChar_eq_true hlt, hasChar_eq_true hgt, hstrip, hc0, hm]
    have hne : ((0 : Nat) == m + 1) = false := by simp
    rw [hne]
    have hnolt : hasChar '<' (docText (b :: bs2)) = false :=
      hasChar_eq_false (fun d hd => (hclean d hd).1)
    simp only [Bool.true_and, Bool.false_eq_true, if_false, if_true]
    rw [stripLoop_succ, hnolt]
    simp

/-- Characters of the excerpt of a body without opening angle brackets
are never angle brackets. -/
theorem excerptOf_clean (body : String) (h : '<' ∉ body.toList) :
    ∀ c ∈ (excerptOf body).toList, c ≠ '<' ∧ c ≠ '>' := by
  intro c hc
  have hgood := parseBlocks_no_raw body.toList h
  have hdoc : strip_tags (mdConvertBasic body.toList) = docText (parseBlocks body.toList) :=
    strip_tags_doc (parseBlocks body.toList) hgood
  have hc2 : c ∈ (strip_tags (mdConvertBasic body.toList)).take 54 := hc
  rw [hdoc] at hc2
  exact docText_clean _ hgood c (List.take_subset _ _ hc2)

/-- Absence of an opening angle bracket directly followed by the letter
d; any occurrence of the toc wrapper substring starts with this
two-character sequence. -/
def noLtd : List Char → Bool
  | [] => true
  | [_] => true
  | a :: b :: rest => !(a == '<' && b == 'd') && noLtd (b :: rest)

/-- The invariant passes to the tail. -/
theorem noLtd_tail {c : Char} {l : List Char} (h : noLtd (c :: l) = true) : noLtd l = true := by
  cases l with
  | nil => rfl
  | cons b t =>
    have h2 : (!(c == '<' && b == 'd') && noLtd (b :: t)) = true := h
    simp only [Bool.and_eq_true] at h2
    exact h2.2

/-- Prepend a character that cannot form the forbidden pair. -/
theorem noLtd_cons {c : Char} {l : List Char}
    (hc : c ≠ '<' ∨ l.head? ≠ some 'd') (h : noLtd l = true) : noLtd (c :: l) = true := by
  cases l with
  | nil => rfl
  | cons b t =>
    show (!(c == '<' && b == 'd') && noLtd (b :: t)) = true
    rw [h]
    rcases hc with hc | hc
    · have hb : (c == '<') = false := by simp [hc]
      simp [hb]
    · have hb : (b == 'd') = false := by
        simp only [List.head?_cons, ne_eq, Option.some.injEq] at hc
        simp [hc]
      simp [hb]

/-- A list without opening angle brackets satisfies the invariant. -/
theorem noLtd_of_no_lt : ∀ (l : List Char), (∀ c ∈ l, c ≠ '<') → noLtd l = true := by
  intro l
  induction l with
  | nil => intro h; rfl
  | cons c t ih =>
    intro h
    exact noLtd_cons (Or.inl (h c (by simp))) (ih (fun d hd => h d (by simp [hd])))

/-- Appending preserves the invariant when the right part does not
start with the letter d. -/
theorem noLtd_append_right : ∀ (a b : List Char), noLtd a = true → noLtd b = true →
    b.head? ≠ some 'd' → noLtd (a ++ b) = true := by
  intro a
  induction a with
  | nil =>
    intro b _ hb _
    simpa using hb
  | cons x xs ih =>
    intro b ha hb hd
    cases xs with
    | nil => exact noLtd_cons (Or.inr hd) hb
    | cons y ys =>
      show (!(x == '<' && y == 'd') && noLtd (y :: (ys ++ b))) = true
      have ha2 : (!(x == '<' && y == 'd') && noLtd (y :: ys)) = true := ha
      simp only [Bool.and_eq_true] at ha2
      rw [Bool.and_eq_true]
      exact ⟨ha2.1, ih b ha2.2 hb hd⟩

/-- The toc wrapper pattern is no prefix of a list satisfying the
invariant. -/
theorem isPrefixL_ltd_false (p : List Char) (l : List Char) (h : noLtd l = true) :
    isPrefixL ('<' :: 'd' :: p) l = false := by
  cases l with
  | nil => rfl
  | cons c rest =>
    cases rest with
    | nil =>
      show (('<' == c) && isPrefixL ('d' :: p) []) = false
      simp [isPrefixL]
    | cons c2 t =>
      show (('<' == c) && (('d' == c2) && isPrefixL p t)) = false
      by_cases h1 : c = '<'
      · subst h1
        by_cases h2 : c2 = 'd'
        · subst h2
          exfalso
          have h3 : (!((('<' : Char) == '<') && (('d' : Char) == 'd'))
              && noLtd ('d' :: t)) = true := h
          simp at h3
        · have hb : ('d' == c2) = false := by
            rw [beq_eq_false_iff_ne]
            exact fun hh => h2 hh.symm
          simp [hb]
      · have hb : ('<' == c) = false := by
          rw [beq_eq_false_iff_ne]
          exact fun hh => h1 hh.symm
        simp [hb]

/-- The toc wrapper pattern occurs nowhere in a list satisfying the
invariant. -/
theorem occursIn_ltd_false (p : List Char) : ∀ (l : List Char), noLtd l = true →
    occursIn ('<' :: 'd' :: p) l = false := by
  intro l
  induction l with
  | nil => intro h; rfl
  | cons c rest ih =>
    intro h
    show (isPrefixL ('<' :: 'd' :: p) (c :: rest) || occursIn ('<' :: 'd' :: p) rest) = false
    rw [isPrefixL_ltd_false p _ h, ih (noLtd_tail h)]
    rfl

/-- Characters of the collapsed slug come from the input or are the
hyphen. -/
theorem collapseGo_mem : ∀ (l : List Char) (b : Bool) (c : Char),
    c ∈ collapseGo b l → c = '-' ∨ c ∈ l := by
  intro l
  induction l with
  | nil =>
    intro b c hc
    simp [collapseGo] at hc
  | cons x xs ih =>
    intro b c hc
    by_cases hx : (x == ' ' || x == '-') = true
    · cases b with
      | true =>
        have hc2 : c ∈ collapseGo true xs := by simpa [collapseGo, hx] using hc
        rcases ih true c hc2 with h | h
        · exact Or.inl h
        · exact Or.inr (List.mem_cons_of_mem _ h)
      | false =>
        have hc2 : c ∈ '-' :: collapseGo true xs := by simpa [collapseGo, hx] using hc
        rcases List.mem_cons.mp hc2 with rfl | h
        · exact Or.inl rfl
        · rcases ih true c h with h2 | h2
          · exact Or.inl h2
          · exact Or.inr (List.mem_cons_of_mem _ h2)
    · have hc2 : c ∈ x :: collapseGo false xs := by simpa [collapseGo, hx] using hc
      rcases List.mem_cons.mp hc2 with rfl | h
      · exact Or.inr (List.mem_cons_self _ _)
      · rcases ih false c h with h2 | h2
        · exact Or.inl h2
        · exact Or.inr (List.mem_cons_of_mem _ h2)

/-- Characters survive trimming only if present before. -/
theorem trimDash_mem {c : Char} {l : List Char} (h : c ∈ trimDash l) : c ∈ l := by
  unfold trimDash at h
  have h1 := List.mem_reverse.mp h
  have h2 := (List.dropWhile_sublist _).subset h1
  have h3 := List.mem_reverse.mp h2
  exact (List.dropWhile_sublist _).subset h3

/-- The slug of any text contains no opening angle bracket. -/
theorem slugifyL_no_lt (t : List Char) : ∀ c ∈ slugifyL t, c ≠ '<' := by
  intro c hc hlt
  subst hlt
  have h1 := trimDash_mem hc
  rcases collapseGo_mem _ false '<' h1 with h | h
  · exact absurd h (by decide)
  · have h2 := List.mem_filter.mp h
    exact absurd h2.2 (by decide)

/-- The head of a cons differing from the letter d. -/
theorem head?_cons_ne {c : Char} (rest : List Char) (h : c ≠ 'd') :
    (c :: rest).head? ≠ some 'd' := by
  simp [h]

/-- Rich-content renders of heading and paragraph blocks satisfy the
invariant: their only opening brackets start the fixed h and p tags. -/
theorem renderTocBlock_noLtd (tocDoc : List Char) (b : Block)
    (h1 : isRaw b = false) (h2 : b ≠ Block.tocMarker) :
    noLtd (renderTocBlock tocDoc b) = true := by
  cases b with
  | heading n t =>
    obtain ⟨hgt, hlt, hdd, hnl⟩ := digitChar_props n
    show noLtd ('<' :: 'h' :: digitChar n :: ' ' :: 'i' :: 'd' :: '=' :: '"' ::
        (slugifyL t ++ ('"' :: '>' :: (escapeHtml t ++
          ('<' :: '/' :: 'h' :: digitChar n :: ['>']))))) = true
    have e0 : noLtd (['>'] : List Char) = true := rfl
    have e1 : noLtd (digitChar n :: ['>']) = true := noLtd_cons (Or.inl hlt) e0
    have e2 : noLtd ('h' :: digitChar n :: ['>']) = true :=
      noLtd_cons (Or.inl (by decide)) e1
    have e3 : noLtd ('/' :: 'h' :: digitChar n :: ['>']) = true :=
      noLtd_cons (Or.inl (by decide)) e2
    have e4 : noLtd ('<' :: '/' :: 'h' :: digitChar n :: ['>']) = true :=
      noLtd_cons (Or.inr (head?_cons_ne _ (by decide))) e3
    have e5 : noLtd (escapeHtml t ++ ('<' :: '/' :: 'h' :: digitChar n :: ['>'])) = true :=
      noLtd_append_right _ _
        (noLtd_of_no_lt _ (fun c hc => (escapeHtml_no_angle t c hc).1)) e4
        (head?_cons_ne _ (by decide))
    have e6 : noLtd ('>' :: (escapeHtml t ++
        ('<' :: '/' :: 'h' :: digitChar n :: ['>']))) = true :=
      noLtd_cons (Or.inl (by decide)) e5
    have e7 : noLtd ('"' :: '>' :: (escapeHtml t ++
        ('<' :: '/' :: 'h' :: digitChar n :: ['>']))) = true :=
      noLtd_cons (Or.inl (by decide)) e6
    have e8 : noLtd (slugifyL t ++ ('"' :: '>' :: (escapeHtml t ++
        ('<' :: '/' :: 'h' :: digitChar n :: ['>'])))) = true :=
      noLtd_append_right _ _ (noLtd_of_no_lt _ (slugifyL_no_lt t)) e7
        (head?_cons_ne _ (by decide))
    have e9 : noLtd ('"' :: (slugifyL t ++ ('"' :: '>' :: (escapeHtml t ++
        ('<' :: '/' :: 'h' :: digitChar n :: ['>']))))) = true :=
      noLtd_cons (Or.inl (by decide)) e8
    have e10 : noLtd ('=' :: '"' :: (slugifyL t ++ ('"' :: '>' :: (escapeHtml t ++
        ('<' :: '/' :: 'h' :: digitChar n :: ['>']))))) = true :=
      noLtd_cons (Or.inl (by decide)) e9
    have e11 : noLtd ('d' :: '=' :: '"' :: (slugifyL t ++ ('"' :: '>' :: (escapeHtml t ++
        ('<' :: '/' :: 'h' :: digitChar n :: ['>']))))) = true :=
      noLtd_cons (Or.inl (by decide)) e10
    have e12 : noLtd ('i' :: 'd' :: '=' :: '"' :: (slugifyL t ++ ('"' :: '>' ::
        (escapeHtml t ++ ('<' :: '/' :: 'h' :: digitChar n :: ['>']))))) = true :=
      noLtd_cons (Or.inl (by decide)) e11
    have e13 : noLtd (' ' :: 'i' :: 'd' :: '=' :: '"' :: (slugifyL t ++ ('"' :: '>' ::
        (escapeHtml t ++ ('<' :: '/' :: 'h' :: digitChar n :: ['>']))))) = true :=
      noLtd_cons (Or.inl (by decide)) e12
    have e14 : noLtd (digitChar n :: ' ' :: 'i' :: 'd' :: '=' :: '"' :: (slugifyL t ++
        ('"' :: '>' :: (escapeHtml t ++
          ('<' :: '/' :: 'h' :: digitChar n :: ['>']))))) = true :=
      noLtd_cons (Or.inl hlt) e13
    have e15 : noLtd ('h' :: digitChar n :: ' ' :: 'i' :: 'd' :: '=' :: '"' ::
        (slugifyL t ++ ('"' :: '>' :: (escapeHtml t ++
          ('<' :: '/' :: 'h' :: digitChar n :: ['>']))))) = true :=
      noLtd_cons (Or.inl (by decide)) e14
    exact noLtd_cons (Or.inr (head?_cons_ne _ (by decide))) e15
  | para t =>
    show noLtd ('<' :: 'p' :: '>' :: (escapeHtml t ++ ('<' :: '/' :: 'p' :: ['>']))) = true
    have e0 : noLtd ('<' :: '/' :: 'p' :: ['>']) = true := by decide
    have e1 : noLtd (escapeHtml t ++ ('<' :: '/' :: 'p' :: ['>'])) = true :=
      noLtd_append_right _ _
        (noLtd_of_no_lt _ (fun c hc => (escapeHtml_no_angle t c hc).1)) e0
        (head?_cons_ne _ (by decide))
    exact noLtd_cons (Or.inr (head?_cons_ne _ (by decide)))
      (noLtd_cons (Or.inl (by decide)) (noLtd_cons (Or.inl (by decide)) e1))
  | tocMarker => exact absurd rfl h2
  | rawHtml t => simp [isRaw] at h1

/-- The joined rich-content document of heading and paragraph blocks
satisfies the invariant. -/
theorem joinToc_noLtd (tocDoc : List Char) (bs : List Block)
    (h : ∀ b ∈ bs, isRaw b = false ∧ b ≠ Block.tocMarker) :
    noLtd (joinNl (bs.map (renderTocBlock tocDoc))) = true := by
  induction bs with
  | nil => rfl
  | cons b bs2 ih =>
    cases bs2 with
    | nil =>
      show noLtd (renderTocBlock tocDoc b) = true
      exact renderTocBlock_noLtd tocDoc b (h b (by simp)).1 (h b (by simp)).2
    | cons b2 bs3 =>
      show noLtd (renderTocBlock tocDoc b ++
          '\n' :: joinNl ((b2 :: bs3).map (renderTocBlock tocDoc))) = true
      refine noLtd_append_right _ _
        (renderTocBlock_noLtd tocDoc b (h b (by simp)).1 (h b (by simp)).2) ?_
        (head?_cons_ne _ (by decide))
      exact noLtd_cons (Or.inl (by decide)) (ih (fun x hx => h x (by simp [hx])))

/-- Sample instance used by concrete witnesses and counterexamples: a
freshly loaded post with five views, a caller-set excerpt and a stored
modification time of zero. -/
def cPost : Post :=
  { title := "t", body := "b", created_time := 0, modified_time := 0
    excerpt := "custom", views := 5, richContentCache := none }

/-- Database row matching cPost. -/
def cDb : Stored := storedOf cPost

/-- C1: the claim is false on the code: increase_views dispatches
through the overridden save, which re-runs the modified_time and
excerpt recomputation on the in-memory instance.  At the concrete
instance cPost (views five, modified_time zero, caller-set excerpt
"custom") a call at time seven changes the in-memory modified_time and
overwrites the in-memory excerpt with the recomputation from the body,
contradicting the claim that both are left unchanged and the
recomputation is not re-run. -/
theorem C1_counterexample :
    ((cPost.increase_views 7 cDb).1).modified_time ≠ cPost.modified_time ∧
    ((cPost.increase_views 7 cDb).1).excerpt ≠ cPost.excerpt := by
  constructor
  · decide
  · decide

/-- C1 (amended): increase_views on a post with views = 5 yields views
= 6 and persists only the views column, leaving the stored title, body,
excerpt, created_time and modified_time unchanged; however it dispatches
through the full save override, so the in-memory modified_time is set to
the save time and the in-memory excerpt is recomputed from the body. -/
theorem C1_increase_views_amended (p : Post) (db : Stored) (now : Nat) (h : p.views = 5) :
    ((p.increase_views now db).1).views = 6 ∧
    ((p.increase_views now db).2).views = 6 ∧
    ((p.increase_views now db).2).title = db.title ∧
    ((p.increase_views now db).2).body = db.body ∧
    ((p.increase_views now db).2).excerpt = db.excerpt ∧
    ((p.increase_views now db).2).modified_time = db.modified_time ∧
    ((p.increase_views now db).2).created_time = db.created_time ∧
    ((p.increase_views now db).1).title = p.title ∧
    ((p.increase_views now db).1).body = p.body ∧
    ((p.increase_views now db).1).modified_time = now ∧
    ((p.increase_views now db).1).excerpt = excerptOf p.body := by
  have h1 : ((p.increase_views now db).1).views = p.views + 1 := rfl
  have h2 : (p.increase_views now db).2 = { db with views := p.views + 1 } := rfl
  refine ⟨?_, ?_, ?_, ?_, ?_, ?_, ?_, rfl, rfl, rfl, rfl⟩
  · rw [h1, h]
  · rw [h2, h]
  · rw [h2]
  · rw [h2]
  · rw [h2]
  · rw [h2]
  · rw [h2]

/-- C1 witness: the amended statement at the concrete instance cPost. -/
theorem C1_witness :
    cPost.views = 5 ∧ ((cPost.increase_views 9 cDb).1).views = 6 ∧
    ((cPost.increase_views 9 cDb).2).excerpt = cDb.excerpt ∧
    ((cPost.increase_views 9 cDb).2).modified_time = cDb.modified_time ∧
    ((cPost.increase_views 9 cDb).1).modified_time = 9 :=
  ⟨rfl, (C1_increase_views_amended cPost cDb 9 rfl).1,
    (C1_increase_views_amended cPost cDb 9 rfl).2.2.2.2.1,
    (C1_increase_views_amended cPost cDb 9 rfl).2.2.2.2.2.1,
    (C1_increase_views_amended cPost cDb 9 rfl).2.2.2.2.2.2.2.2.2.1⟩

/-- C3: on every save, the in-memory excerpt and (on a full save) the
stored excerpt are recomputed as exactly the body rendered by the
toc-free converter, tag-stripped, truncated to the first 54 characters,
for any prior excerpt value. -/
theorem C3_excerpt_recomputed_on_save (p : Post) (now : Nat)
    (uf : Option (List String)) (db : Stored) :
    ((p.saveDb now uf db).1).excerpt
        = String.mk ((strip_tags (mdConvertBasic p.body.toList)).take 54) ∧
    ((p.saveDb now none db).2).excerpt
        = String.mk ((strip_tags (mdConvertBasic p.body.toList)).take 54) :=
  ⟨rfl, rfl⟩

/-- C4: the rendered pair is computed once on first access, reading it
twice on one instance returns the identical cached pair, a body change
on that instance does not invalidate the cache, and a fresh instance
with the same body reproduces the same output, the rendering being a
pure function of the body. -/
theorem C4_rich_content_cached_pure (p : Post) (h : p.richContentCache = none) :
    ((p.rich_content).1 = generate_rich_content p.body) ∧
    (((p.rich_content).2.rich_content).1 = (p.rich_content).1 ∧
      ((p.rich_content).2.rich_content).2 = (p.rich_content).2) ∧
    (∀ b : String, (({ (p.rich_content).2 with body := b }).rich_content).1
        = (p.rich_content).1) ∧
    (∀ q : Post, q.richContentCache = none → q.body = p.body →
      (q.rich_content).1 = (p.rich_content).1) := by
  refine ⟨by simp [Post.rich_content, h], ⟨by simp [Post.rich_content, h],
    by simp [Post.rich_content, h]⟩, fun b => by simp [Post.rich_content, h],
    fun q hq hb => by simp [Post.rich_content, hq, hb, h]⟩

/-- C4 witness: the caching statement at the concrete instance cPost,
whose cache slot is empty. -/
theorem C4_witness :
    cPost.richContentCache = none ∧
    (((cPost.rich_content).1 = generate_rich_content cPost.body) ∧
      (((cPost.rich_content).2.rich_content).1 = (cPost.rich_content).1 ∧
        ((cPost.rich_content).2.rich_content).2 = (cPost.rich_content).2) ∧
      (∀ b : String, (({ (cPost.rich_content).2 with body := b }).rich_content).1
          = (cPost.rich_content).1) ∧
      (∀ q : Post, q.richContentCache = none → q.body = cPost.body →
        (q.rich_content).1 = (cPost.rich_content).1)) :=
  ⟨rfl, C4_rich_content_cached_pure cPost rfl⟩

/-- C5: when the rendered document has no headings the extracted toc is
the empty string, by normal control flow rather than an error: the toc
side-channel is then the fixed empty wrapper, on which the regex search
succeeds with an empty inner group. -/
theorem C5_no_headings_empty_toc (body : String)
    (h : headingsOf (parseBlocks body.toList) = []) :
    (generate_rich_content body).toc = "" := by
  have h2 : mdTocOutput body.toList = tocDivOf [] := by
    rw [mdTocOutput, h]
  show String.mk (extractToc (mdTocOutput body.toList)) = ""
  rw [h2]
  decide

/-- C5 witness: a concrete heading-free body. -/
theorem C5_witness :
    headingsOf (parseBlocks ("hello world" : String).toList) = [] ∧
    (generate_rich_content "hello world").toc = "" :=
  ⟨by decide, C5_no_headings_empty_toc "hello world" (by decide)⟩

/-- C6: after any save the excerpt never exceeds 54 characters,
whatever the length of the body. -/
theorem C6_excerpt_length_le_54 (p : Post) (now : Nat)
    (uf : Option (List String)) (db : Stored) :
    ((p.saveDb now uf db).1).excerpt.length ≤ 54 := by
  show (excerptOf p.body).length ≤ 54
  simp [excerptOf, String.length, List.length_take]

/-- C7: the claim is false on the code: markdown passes block-level raw
HTML through verbatim, and on the body given below the tag stripper
removes the div tags but keeps the bare closing bracket between them,
so the computed excerpt is the five characters a, space, closing angle
bracket, space, b — which contains an angle bracket. -/
theorem C7_counterexample :
    ¬ (('<' ∉ (excerptOf "<div>a > b</div>").toList) ∧
        ('>' ∉ (excerptOf "<div>a > b</div>").toList)) := by
  decide

/-- C7 (amended): for every body containing no opening angle bracket —
so that the rendered document contains no raw HTML passthrough block —
the excerpt computed on save contains no angle bracket in either
direction. -/
theorem C7_excerpt_no_angle_amended (body : String) (h : '<' ∉ body.toList) :
    '<' ∉ (excerptOf body).toList ∧ '>' ∉ (excerptOf body).toList := by
  have hc := excerptOf_clean body h
  constructor
  · intro hmem
    exact (hc _ hmem).1 rfl
  · intro hmem
    exact (hc _ hmem).2 rfl

/-- C7 witness: the amended statement at a concrete bracket-free
body. -/
theorem C7_witness :
    ('<' ∉ ("hi there" : String).toList) ∧
    ('<' ∉ (excerptOf "hi there").toList ∧ '>' ∉ (excerptOf "hi there").toList) :=
  ⟨by decide, C7_excerpt_no_angle_amended "hi there" (by decide)⟩

/-- C2: the claim is false on the code: markdown passes block-level raw
HTML through verbatim into the rendered content, so a body that itself
contains a toc wrapper div yields a content string containing the
wrapper markup. -/
theorem C2_counterexample :
    occursIn ("<div class=\"toc\">".toList)
      (generate_rich_content "<div class=\"toc\">\n<ul><li>x</li></ul>\n</div>").content.toList
      = true := by
  decide

/-- C2 (amended): the renderer itself introduces no toc wrapper into
the content: for every body with no opening angle bracket — so no raw
HTML passthrough block — and no [TOC] placeholder block, the rendered
content contains no toc wrapper div markup; the wrapper can only enter
the content through the body itself, via raw HTML or the [TOC]
placeholder. -/
theorem C2_content_no_toc_wrapper_amended (body : String)
    (h1 : '<' ∉ body.toList) (h2 : Block.tocMarker ∉ parseBlocks body.toList) :
    occursIn ("<div class=\"toc\">".toList)
      (generate_rich_content body).content.toList = false := by
  have hgood := parseBlocks_no_raw body.toList h1
  have hnl : noLtd (mdConvertToc body.toList) = true :=
    joinToc_noLtd (tocDivOf (headingsOf (parseBlocks body.toList)))
      (parseBlocks body.toList)
      (fun b hb => ⟨hgood b hb, fun he => h2 (he ▸ hb)⟩)
  exact occursIn_ltd_false ("iv class=\"toc\">".toList) (mdConvertToc body.toList) hnl

/-- C2 witness: the amended statement at a concrete plain body. -/
theorem C2_witness :
    ('<' ∉ ("hello" : String).toList) ∧
    (Block.tocMarker ∉ parseBlocks ("hello" : String).toList) ∧
    occursIn ("<div class=\"toc\">".toList)
      (generate_rich_content "hello").content.toList = false :=
  ⟨by decide, by decide,
    C2_content_no_toc_wrapper_amended "hello" (by decide) (by decide)⟩

/-- C8: every save stamps the in-memory modified_time with the save
time, overwriting any caller-supplied value, whatever the update_fields
argument. -/
theorem C8_modified_time_now_on_save (p : Post) (now : Nat)
    (uf : Option (List String)) (db : Stored) :
    ((p.saveDb now uf db).1).modified_time = now := rfl

/-- C9: increase_views dispatches through the full save override: the
in-memory instance gets views incremented, the excerpt recomputed from
the current body and modified_time set to the save time, while the
stored row changes in the views column only. -/
theorem C9_increase_views_full_dispatch (p : Post) (now : Nat) (db : Stored) :
    ((p.increase_views now db).1).views = p.views + 1 ∧
    ((p.increase_views now db).1).excerpt = excerptOf p.body ∧
    ((p.increase_views now db).1).modified_time = now ∧
    (p.increase_views now db).2 = { db with views := p.views + 1 } :=
  ⟨rfl, rfl, rfl, rfl⟩

/-- C10: the toc and body_html properties both read the single cached
rich_content pair: reading either populates the shared cache, each
returns the corresponding component of that one pair, and after either
read the other property reports the matching component of the same
snapshot even if the body is changed in between. -/
theorem C10_toc_body_html_shared_cache (p : Post) :
    (p.toc).2 = (p.rich_content).2 ∧
    (p.body_html).2 = (p.rich_content).2 ∧
    (p.toc).1 = ((p.rich_content).1).toc ∧
    (p.body_html).1 = ((p.rich_content).1).content ∧
    (((p.toc).2).body_html).1 = ((p.rich_content).1).content ∧
    (((p.body_html).2).toc).1 = ((p.rich_content).1).toc ∧
    (∀ b : String, (({ (p.toc).2 with body := b }).body_html).1
        = ((p.rich_content).1).content) := by
  cases hc : p.richContentCache <;>
    simp [Post.toc, Post.body_html, Post.rich_content, hc]

end Blog

